import Mathlib

/-!
Shallow embedding of `src/raw.rs`: the primitive read/write functions of the
NBT wire codec (scalars, strings, arrays, headers), together with proofs of
the specification's testable properties.

Modelling conventions:
* A byte sink is modelled by the list of bytes a write emits (`List Nat`,
  each byte `< 256` by construction).
* A byte source is modelled by a cursor over an in-memory byte list: a read
  consumes from the front and the remaining list is returned alongside the
  value (this is `io::Cursor` / `&[u8]` semantics).  For the string reader's
  retry loop, a second model (`readLoopChunks`) represents a source whose
  successive `read` calls yield arbitrary chunks, so short reads are visible.
* Rust `i8/i16/i32/i64` values are `Int` with the two's-complement encoding
  made explicit (`toUnsigned` / `toSigned`); `f32`/`f64` values are carried
  as their IEEE-754 bit patterns (`Nat` below `2^32` / `2^64`), which is
  exact because the codec only ever transcodes the bit pattern.
* A Rust `String`/`&str` is represented by its UTF-8 byte encoding
  (`List Nat` satisfying `validUtf8`); `String::from_utf8` is the validity
  check returning those same bytes.
-/

namespace Nbt

/-- Modelled from the spec: the library's error type is defined in
`error.rs`, which is not among the provided sources.  Section 7 of the spec
gives the taxonomy: a generic I/O failure, an "incomplete value" condition
distinct from it (the variant name `IncompleteNbtValue` appears literally in
`raw.rs`), and an invalid-text-encoding condition that preserves the
offending bytes for diagnostics. -/
inductive Error where
  | ioError : Error
  | incompleteNbtValue : Error
  | invalidUtf8 : List Nat → Error
  deriving DecidableEq, Repr

/-- Little-endian byte encoding of `n` into exactly `m` bytes
(least-significant byte first), as produced by `byteorder`'s
`write_uXX::<LittleEndian>` family. -/
def leBytes : Nat → Nat → List Nat
  | 0, _ => []
  | m + 1, n => n % 256 :: leBytes m (n / 256)

/-- Little-endian value of a byte list, as decoded by `byteorder`'s
`read_uXX::<LittleEndian>` family. -/
def leVal : List Nat → Nat
  | [] => 0
  | b :: bs => b + 256 * leVal bs

/-- Two's-complement bit pattern of a signed value at the given bit width
(the `as uN` reinterpretation Rust performs when writing a signed integer). -/
def toUnsigned (bits : Nat) (v : Int) : Nat := (v % ((2 : Int) ^ bits)).toNat

/-- Signed value of a two's-complement bit pattern at the given bit width
(the reinterpretation Rust performs when reading a signed integer). -/
def toSigned (bits : Nat) (n : Nat) : Int :=
  if n < 2 ^ (bits - 1) then (n : Int) else (n : Int) - 2 ^ bits

/-- The `as usize` cast applied to an `i32` (`usize` is 64-bit here, as on
the platforms the crate targets): two's-complement reinterpretation. -/
def usizeOfI32 (v : Int) : Nat := (v % ((2 : Int) ^ 64)).toNat

/-- The `as i32` cast applied to a `usize` length (`value.len() as i32` in
the array writers): truncate to 32 bits, then reinterpret as signed. -/
def i32OfUsize (n : Nat) : Int := toSigned 32 (n % 2 ^ 32)

/-- Reading exactly `n` bytes from a cursor source, as `io::Read::read_exact`
(used by all `byteorder` fixed-width reads) does: if fewer than `n` bytes
remain the read fails with `UnexpectedEof`, which the library's `From`
conversion turns into the incomplete-value condition (modelled from the
spec, sections 4.2 and 7: exhaustion before the required count is the
end-of-data / "incomplete value" condition, distinct from a generic I/O
failure). -/
def readExact (n : Nat) (src : List Nat) : Except Error (List Nat × List Nat) :=
  if src.length < n then .error .incompleteNbtValue
  else .ok (src.take n, src.drop n)

/-- Whether a byte is a UTF-8 continuation byte (`0x80..=0xBF`). -/
def isCont (b : Nat) : Bool := 0x80 ≤ b && b ≤ 0xBF

/-- UTF-8 validity of a byte sequence, exactly as `String::from_utf8`
checks it (RFC 3629: no overlong forms, no surrogates, max `U+10FFFF`). -/
def validUtf8 : List Nat → Bool
  | [] => true
  | b :: rest =>
    if b ≤ 0x7F then validUtf8 rest
    else if 0xC2 ≤ b && b ≤ 0xDF then
      match rest with
      | c1 :: r => isCont c1 && validUtf8 r
      | [] => false
    else if b = 0xE0 then
      match rest with
      | c1 :: c2 :: r => (0xA0 ≤ c1 && c1 ≤ 0xBF) && isCont c2 && validUtf8 r
      | _ => false
    else if (0xE1 ≤ b && b ≤ 0xEC) || b = 0xEE || b = 0xEF then
      match rest with
      | c1 :: c2 :: r => isCont c1 && isCont c2 && validUtf8 r
      | _ => false
    else if b = 0xED then
      match rest with
      | c1 :: c2 :: r => (0x80 ≤ c1 && c1 ≤ 0x9F) && isCont c2 && validUtf8 r
      | _ => false
    else if b = 0xF0 then
      match rest with
      | c1 :: c2 :: c3 :: r =>
        (0x90 ≤ c1 && c1 ≤ 0xBF) && isCont c2 && isCont c3 && validUtf8 r
      | _ => false
    else if 0xF1 ≤ b && b ≤ 0xF3 then
      match rest with
      | c1 :: c2 :: c3 :: r => isCont c1 && isCont c2 && isCont c3 && validUtf8 r
      | _ => false
    else if b = 0xF4 then
      match rest with
      | c1 :: c2 :: c3 :: r =>
        (0x80 ≤ c1 && c1 ≤ 0x8F) && isCont c2 && isCont c3 && validUtf8 r
      | _ => false
    else false

/-- `close_nbt`: writes the single terminator byte `0x00`. -/
def close_nbt : List Nat := [0x00]

/-- `write_bare_byte`: `dst.write_i8(value)`. -/
def write_bare_byte (value : Int) : List Nat := leBytes 1 (toUnsigned 8 value)

/-- `write_bare_short`: `dst.write_i16::<LittleEndian>(value)`. -/
def write_bare_short (value : Int) : List Nat := leBytes 2 (toUnsigned 16 value)

/-- `write_bare_int`: `dst.write_i32::<LittleEndian>(value)`. -/
def write_bare_int (value : Int) : List Nat := leBytes 4 (toUnsigned 32 value)

/-- `write_bare_long`: `dst.write_i64::<LittleEndian>(value)`. -/
def write_bare_long (value : Int) : List Nat := leBytes 8 (toUnsigned 64 value)

/-- `write_bare_float`: `dst.write_f32::<LittleEndian>(value)` — the `f32`
value is carried as its 32-bit IEEE-754 bit pattern. -/
def write_bare_float (bits : Nat) : List Nat := leBytes 4 bits

/-- `write_bare_double`: `dst.write_f64::<LittleEndian>(value)` — the `f64`
value is carried as its 64-bit IEEE-754 bit pattern. -/
def write_bare_double (bits : Nat) : List Nat := leBytes 8 bits

/-- `write_bare_string`: writes `value.len() as u16` little-endian (note the
narrowing cast: the length is reduced mod `2^16`), then the UTF-8 bytes. -/
def write_bare_string (value : List Nat) : List Nat :=
  leBytes 2 (value.length % 2 ^ 16) ++ value

/-- `write_bare_byte_array`: writes `value.len() as i32` little-endian, then
each element with `write_i8`, in order. -/
def write_bare_byte_array (value : List Int) : List Nat :=
  write_bare_int (i32OfUsize value.length) ++ (value.map write_bare_byte).flatten

/-- `write_bare_int_array`: writes `value.len() as i32` little-endian, then
each element with `write_i32::<LittleEndian>`, in order. -/
def write_bare_int_array (value : List Int) : List Nat :=
  write_bare_int (i32OfUsize value.length) ++ (value.map write_bare_int).flatten

/-- `write_bare_long_array`: writes `value.len() as i32` little-endian, then
each element with `write_i64::<LittleEndian>`, in order. -/
def write_bare_long_array (value : List Int) : List Nat :=
  write_bare_int (i32OfUsize value.length) ++ (value.map write_bare_long).flatten

/-- `read_bare_byte`: `src.read_i8()`. -/
def read_bare_byte (src : List Nat) : Except Error (Int × List Nat) :=
  match readExact 1 src with
  | .error e => .error e
  | .ok (bs, rest) => .ok (toSigned 8 (leVal bs), rest)

/-- `read_bare_short`: `src.read_i16::<LittleEndian>()`. -/
def read_bare_short (src : List Nat) : Except Error (Int × List Nat) :=
  match readExact 2 src with
  | .error e => .error e
  | .ok (bs, rest) => .ok (toSigned 16 (leVal bs), rest)

/-- `read_bare_int`: `src.read_i32::<LittleEndian>()`. -/
def read_bare_int (src : List Nat) : Except Error (Int × List Nat) :=
  match readExact 4 src with
  | .error e => .error e
  | .ok (bs, rest) => .ok (toSigned 32 (leVal bs), rest)

/-- `read_bare_long`: `src.read_i64::<LittleEndian>()`. -/
def read_bare_long (src : List Nat) : Except Error (Int × List Nat) :=
  match readExact 8 src with
  | .error e => .error e
  | .ok (bs, rest) => .ok (toSigned 64 (leVal bs), rest)

/-- `read_bare_float`: `src.read_f32::<LittleEndian>()`, returning the
32-bit IEEE-754 bit pattern. -/
def read_bare_float (src : List Nat) : Except Error (Nat × List Nat) :=
  match readExact 4 src with
  | .error e => .error e
  | .ok (bs, rest) => .ok (leVal bs, rest)

/-- `read_bare_double`: `src.read_f64::<LittleEndian>()`, returning the
64-bit IEEE-754 bit pattern. -/
def read_bare_double (src : List Nat) : Except Error (Nat × List Nat) :=
  match readExact 8 src with
  | .error e => .error e
  | .ok (bs, rest) => .ok (leVal bs, rest)

/-- `read_bare_string`: reads a `u16` little-endian length `len`; if
`len == 0` returns the empty string at once; otherwise accumulates exactly
`len` payload bytes and decodes them as UTF-8.

Over the in-memory cursor source modelled here, each `src.read(&mut
bytes[n_read..])` call of the source's retry loop (lines 219–224) returns
`min(requested, remaining)` bytes and a subsequent call returns `0`, so the
loop delivers `bytes.take len` when at least `len` bytes remain and
otherwise hits the `0 => return Err(Error::IncompleteNbtValue)` arm — which
is exactly `readExact`.  The loop itself is modelled verbatim over
chunk-delivering sources by `readLoopChunks` below, and
`readLoopChunks_single` connects the two. -/
def read_bare_string (src : List Nat) : Except Error (List Nat × List Nat) :=
  match readExact 2 src with
  | .error e => .error e
  | .ok (lb, rest) =>
    if leVal lb = 0 then .ok ([], rest)
    else
      match readExact (leVal lb) rest with
      | .error e => .error e
      | .ok (bytes, rest') =>
        if validUtf8 bytes then .ok (bytes, rest')
        else .error (.invalidUtf8 bytes)

/-- `emit_next_header`: reads one tag byte; tag `0x00` yields `(0, "")`
immediately with nothing further consumed, any other tag is followed by a
bare string read as the name. -/
def emit_next_header (src : List Nat) :
    Except Error ((Nat × List Nat) × List Nat) :=
  match readExact 1 src with
  | .error e => .error e
  | .ok (tb, rest) =>
    if leVal tb = 0 then .ok ((0, []), rest)
    else
      match read_bare_string rest with
      | .error e => .error e
      | .ok (name, rest') => .ok ((leVal tb, name), rest')

/-- The `for _ in 0..len { buf.push(read_element?) }` loop shared by the
three array readers, generic in the element reader. -/
def readScalars (readOne : List Nat → Except Error (Int × List Nat)) :
    Nat → List Nat → Except Error (List Int × List Nat)
  | 0, src => .ok ([], src)
  | n + 1, src =>
    match readOne src with
    | .error e => .error e
    | .ok (v, rest) =>
      match readScalars readOne n rest with
      | .error e => .error e
      | .ok (vs, rest') => .ok (v :: vs, rest')

/-- The capacity each array reader passes to `Vec::with_capacity`:
`let len = src.read_i32::<LittleEndian>()? as usize` (lines 174–175,
188–189 and 201–202 are identical in this respect).  The allocation has no
effect on the value produced, so it is modelled as this separate
observable. -/
def arrayAllocRequest (src : List Nat) : Except Error Nat :=
  match read_bare_int src with
  | .error e => .error e
  | .ok (c, _) => .ok (usizeOfI32 c)

/-- `read_bare_byte_array`: reads `len = read_i32? as usize`
(`Vec::with_capacity(len)` is modelled by `arrayAllocRequest`), then `len`
elements with `read_i8`. -/
def read_bare_byte_array (src : List Nat) : Except Error (List Int × List Nat) :=
  match read_bare_int src with
  | .error e => .error e
  | .ok (c, rest) => readScalars read_bare_byte (usizeOfI32 c) rest

/-- `read_bare_int_array`: reads `len = read_i32? as usize`, then `len`
elements with `read_i32::<LittleEndian>`. -/
def read_bare_int_array (src : List Nat) : Except Error (List Int × List Nat) :=
  match read_bare_int src with
  | .error e => .error e
  | .ok (c, rest) => readScalars read_bare_int (usizeOfI32 c) rest

/-- `read_bare_long_array`: reads `len = read_i32? as usize`, then `len`
elements with `read_i64::<LittleEndian>`. -/
def read_bare_long_array (src : List Nat) : Except Error (List Int × List Nat) :=
  match read_bare_int src with
  | .error e => .error e
  | .ok (c, rest) => readScalars read_bare_long (usizeOfI32 c) rest

/-- Total number of bytes a chunked source can still deliver. -/
def chunksLen (chunks : List (List Nat)) : Nat := (chunks.map List.length).sum

/-- The string reader's accumulation loop (lines 218–224 of `raw.rs`),
modelled over a source whose successive `read` calls each deliver the next
chunk (truncated to the number of bytes still requested, the rest of the
chunk staying in the source): `while n_read < len`, one `src.read` per
iteration, a zero-byte result (empty chunk or exhausted source) aborts with
`Error::IncompleteNbtValue`, a nonzero result is appended and the loop
retries for the remainder. -/
def readLoopChunks : Nat → List (List Nat) → Except Error (List Nat × List (List Nat))
  | 0, chunks => .ok ([], chunks)
  | _ + 1, [] => .error .incompleteNbtValue
  | need + 1, c :: rest =>
    if _h : c.length = 0 then .error .incompleteNbtValue
    else
      match readLoopChunks (need + 1 - min (need + 1) c.length)
          (if c.length ≤ need + 1 then rest else c.drop (need + 1) :: rest) with
      | .error e => .error e
      | .ok (bs, rem) => .ok (c.take (need + 1) ++ bs, rem)
termination_by need _ => need
decreasing_by simp_wf; omega

/-- `read_bare_string` over a chunk-delivering source: the `u16` length is
read with `read_exact` (which loops over partial reads the same way and
maps a zero-byte read to `UnexpectedEof`, i.e. the incomplete-value
condition), then the payload is accumulated by the retry loop and decoded
as UTF-8. -/
def read_bare_string_chunks (src : List (List Nat)) :
    Except Error (List Nat × List (List Nat)) :=
  match readLoopChunks 2 src with
  | .error e => .error e
  | .ok (lb, rest) =>
    if leVal lb = 0 then .ok ([], rest)
    else
      match readLoopChunks (leVal lb) rest with
      | .error e => .error e
      | .ok (bytes, rest') =>
        if validUtf8 bytes then .ok (bytes, rest')
        else .error (.invalidUtf8 bytes)

theorem leBytes_length (m : Nat) : ∀ n, (leBytes m n).length = m := by
  induction m with
  | zero => intro n; rfl
  | succ m ih => intro n; simp [leBytes, ih]

theorem leVal_leBytes (m : Nat) : ∀ n, n < 256 ^ m → leVal (leBytes m n) = n := by
  induction m with
  | zero =>
    intro n h
    simp only [pow_zero, Nat.lt_one_iff] at h
    simp [leBytes, leVal, h]
  | succ m ih =>
    intro n h
    have hd : n / 256 < 256 ^ m := by
      apply Nat.div_lt_of_lt_mul
      rw [← pow_succ']
      exact h
    simp only [leBytes, leVal, ih _ hd]
    omega

theorem toUnsigned_lt (bits : Nat) (v : Int) : toUnsigned bits v < 2 ^ bits := by
  unfold toUnsigned
  have hc : ((2 ^ bits : Nat) : Int) = (2 : Int) ^ bits := by push_cast; ring
  have h2 : (0 : Int) < (2 : Int) ^ bits := by positivity
  have h1 := Int.emod_lt_of_pos v h2
  have h0 := Int.emod_nonneg v (ne_of_gt h2)
  omega

theorem toSigned_toUnsigned (bits : Nat) (hb : 0 < bits) (v : Int)
    (h1 : -(2 ^ (bits - 1) : Int) ≤ v) (h2 : v < 2 ^ (bits - 1)) :
    toSigned bits (toUnsigned bits v) = v := by
  obtain ⟨k, rfl⟩ : ∃ k, bits = k + 1 := ⟨bits - 1, by omega⟩
  unfold toSigned toUnsigned
  simp only [Nat.add_sub_cancel] at h1 h2 ⊢
  have hcast : ((2 ^ k : Nat) : Int) = (2 : Int) ^ k := by push_cast; ring
  have hpow : (2 : Int) ^ (k + 1) = 2 ^ k * 2 := pow_succ 2 k
  have hpos : (0 : Int) < 2 ^ k := by positivity
  rcases le_or_lt 0 v with hv | hv
  · have hmod : v % (2 : Int) ^ (k + 1) = v := Int.emod_eq_of_lt hv (by omega)
    rw [hmod]
    split <;> omega
  · have hnn : (0 : Int) ≤ v + 2 ^ (k + 1) := by omega
    have hlt : v + 2 ^ (k + 1) < 2 ^ (k + 1) := by omega
    have hmod : v % (2 : Int) ^ (k + 1) = v + 2 ^ (k + 1) := by
      have h := Int.add_mul_emod_self_left v ((2 : Int) ^ (k + 1)) 1
      rw [mul_one] at h
      rw [← h, Int.emod_eq_of_lt hnn hlt]
    rw [hmod]
    split <;> omega

theorem usizeOfI32_natCast (n : Nat) (h : n < 2 ^ 64) : usizeOfI32 (n : Int) = n := by
  unfold usizeOfI32
  rw [Int.emod_eq_of_lt (by positivity) (by exact_mod_cast h)]
  exact Int.toNat_natCast n

theorem usizeOfI32_neg (v : Int) (h1 : -((2 : Int) ^ 64) ≤ v) (h2 : v < 0) :
    usizeOfI32 v = (v + 2 ^ 64).toNat := by
  unfold usizeOfI32
  have h := Int.add_mul_emod_self_left v ((2 : Int) ^ 64) 1
  rw [mul_one] at h
  rw [← h, Int.emod_eq_of_lt (by omega) (by omega)]

theorem i32OfUsize_small (n : Nat) (h : n < 2 ^ 31) : i32OfUsize n = (n : Int) := by
  unfold i32OfUsize toSigned
  rw [Nat.mod_eq_of_lt (by omega)]
  rw [if_pos (by omega)]

theorem readExact_append (n : Nat) (xs t : List Nat) (h : xs.length = n) :
    readExact n (xs ++ t) = .ok (xs, t) := by
  unfold readExact
  rw [if_neg (by simp [List.length_append]; omega)]
  rw [List.take_left' h, List.drop_left' h]

theorem readExact_short (n : Nat) (src : List Nat) (h : src.length < n) :
    readExact n src = .error .incompleteNbtValue := by
  unfold readExact
  rw [if_pos h]

theorem readExact_enough (n : Nat) (src : List Nat) (h : n ≤ src.length) :
    readExact n src = .ok (src.take n, src.drop n) := by
  unfold readExact
  rw [if_neg (by omega)]

theorem read_write_byte (v : Int) (t : List Nat)
    (h1 : -(2 ^ 7 : Int) ≤ v) (h2 : v < 2 ^ 7) :
    read_bare_byte (write_bare_byte v ++ t) = .ok (v, t) := by
  simp only [read_bare_byte, write_bare_byte,
    readExact_append 1 _ t (leBytes_length 1 _)]
  rw [leVal_leBytes 1 _ (lt_of_lt_of_le (toUnsigned_lt 8 v) (by norm_num))]
  rw [toSigned_toUnsigned 8 (by norm_num) v h1 h2]

theorem read_write_short (v : Int) (t : List Nat)
    (h1 : -(2 ^ 15 : Int) ≤ v) (h2 : v < 2 ^ 15) :
    read_bare_short (write_bare_short v ++ t) = .ok (v, t) := by
  simp only [read_bare_short, write_bare_short,
    readExact_append 2 _ t (leBytes_length 2 _)]
  rw [leVal_leBytes 2 _ (lt_of_lt_of_le (toUnsigned_lt 16 v) (by norm_num))]
  rw [toSigned_toUnsigned 16 (by norm_num) v h1 h2]

theorem read_write_int (v : Int) (t : List Nat)
    (h1 : -(2 ^ 31 : Int) ≤ v) (h2 : v < 2 ^ 31) :
    read_bare_int (write_bare_int v ++ t) = .ok (v, t) := by
  simp only [read_bare_int, write_bare_int,
    readExact_append 4 _ t (leBytes_length 4 _)]
  rw [leVal_leBytes 4 _ (lt_of_lt_of_le (toUnsigned_lt 32 v) (by norm_num))]
  rw [toSigned_toUnsigned 32 (by norm_num) v h1 h2]

theorem read_write_long (v : Int) (t : List Nat)
    (h1 : -(2 ^ 63 : Int) ≤ v) (h2 : v < 2 ^ 63) :
    read_bare_long (write_bare_long v ++ t) = .ok (v, t) := by
  simp only [read_bare_long, write_bare_long,
    readExact_append 8 _ t (leBytes_length 8 _)]
  rw [leVal_leBytes 8 _ (lt_of_lt_of_le (toUnsigned_lt 64 v) (by norm_num))]
  rw [toSigned_toUnsigned 64 (by norm_num) v h1 h2]

theorem read_write_float (bits : Nat) (t : List Nat) (h : bits < 2 ^ 32) :
    read_bare_float (write_bare_float bits ++ t) = .ok (bits, t) := by
  simp only [read_bare_float, write_bare_float,
    readExact_append 4 _ t (leBytes_length 4 _)]
  rw [leVal_leBytes 4 _ (by norm_num; omega)]

theorem read_write_double (bits : Nat) (t : List Nat) (h : bits < 2 ^ 64) :
    read_bare_double (write_bare_double bits ++ t) = .ok (bits, t) := by
  simp only [read_bare_double, write_bare_double,
    readExact_append 8 _ t (leBytes_length 8 _)]
  rw [leVal_leBytes 8 _ (by norm_num; omega)]

theorem read_write_string (s t : List Nat) (hv : validUtf8 s = true)
    (hl : s.length ≤ 65535) :
    read_bare_string (write_bare_string s ++ t) = .ok (s, t) := by
  unfold write_bare_string read_bare_string
  rw [List.append_assoc, Nat.mod_eq_of_lt (by omega : s.length < 2 ^ 16)]
  simp only [readExact_append 2 _ _ (leBytes_length 2 _)]
  rw [leVal_leBytes 2 _ (by norm_num; omega)]
  rcases Nat.eq_zero_or_pos s.length with h0 | h0
  · rw [if_pos h0]
    have hs : s = [] := List.length_eq_zero.mp h0
    subst hs
    rfl
  · rw [if_neg (by omega)]
    rw [readExact_append _ _ _ rfl]
    simp [hv]

theorem readScalars_roundtrip (r : List Nat → Except Error (Int × List Nat))
    (w : Int → List Nat) (P : Int → Prop)
    (hr : ∀ v t, P v → r (w v ++ t) = .ok (v, t)) :
    ∀ (a : List Int) (t : List Nat), (∀ v ∈ a, P v) →
      readScalars r a.length ((a.map w).flatten ++ t) = .ok (a, t) := by
  intro a
  induction a with
  | nil =>
    intro t _
    simp [readScalars]
  | cons v a ih =>
    intro t hall
    simp only [List.map_cons, List.flatten_cons, List.length_cons,
      List.append_assoc]
    simp only [readScalars, hr v _ (hall v (by simp)),
      ih t (fun x hx => hall x (by simp [hx]))]

theorem read_write_byte_array (a : List Int) (t : List Nat)
    (hlen : a.length < 2 ^ 31)
    (hel : ∀ v ∈ a, -(2 ^ 7 : Int) ≤ v ∧ v < 2 ^ 7) :
    read_bare_byte_array (write_bare_byte_array a ++ t) = .ok (a, t) := by
  unfold write_bare_byte_array read_bare_byte_array
  rw [List.append_assoc, i32OfUsize_small a.length hlen]
  simp only [read_write_int (a.length : Int) _
    (by omega) (by exact_mod_cast hlen)]
  rw [usizeOfI32_natCast a.length (by omega)]
  exact readScalars_roundtrip read_bare_byte write_bare_byte _
    (fun v t hv => read_write_byte v t hv.1 hv.2) a t hel

theorem read_write_int_array (a : List Int) (t : List Nat)
    (hlen : a.length < 2 ^ 31)
    (hel : ∀ v ∈ a, -(2 ^ 31 : Int) ≤ v ∧ v < 2 ^ 31) :
    read_bare_int_array (write_bare_int_array a ++ t) = .ok (a, t) := by
  unfold write_bare_int_array read_bare_int_array
  rw [List.append_assoc, i32OfUsize_small a.length hlen]
  simp only [read_write_int (a.length : Int) _
    (by omega) (by exact_mod_cast hlen)]
  rw [usizeOfI32_natCast a.length (by omega)]
  exact readScalars_roundtrip read_bare_int write_bare_int _
    (fun v t hv => read_write_int v t hv.1 hv.2) a t hel

theorem read_write_long_array (a : List Int) (t : List Nat)
    (hlen : a.length < 2 ^ 31)
    (hel : ∀ v ∈ a, -(2 ^ 63 : Int) ≤ v ∧ v < 2 ^ 63) :
    read_bare_long_array (write_bare_long_array a ++ t) = .ok (a, t) := by
  unfold write_bare_long_array read_bare_long_array
  rw [List.append_assoc, i32OfUsize_small a.length hlen]
  simp only [read_write_int (a.length : Int) _
    (by omega) (by exact_mod_cast hlen)]
  rw [usizeOfI32_natCast a.length (by omega)]
  exact readScalars_roundtrip read_bare_long write_bare_long _
    (fun v t hv => read_write_long v t hv.1 hv.2) a t hel

theorem readLoopChunks_short :
    ∀ (chunks : List (List Nat)) (n : Nat), 0 < n → chunksLen chunks < n →
      readLoopChunks n chunks = .error .incompleteNbtValue := by
  intro chunks
  induction chunks with
  | nil =>
    intro n hn _
    obtain ⟨m, rfl⟩ : ∃ m, n = m + 1 := ⟨n - 1, by omega⟩
    rw [readLoopChunks]
  | cons c rest ih =>
    intro n hn hlen
    obtain ⟨m, rfl⟩ : ∃ m, n = m + 1 := ⟨n - 1, by omega⟩
    simp only [chunksLen, List.map_cons, List.sum_cons] at hlen
    rw [readLoopChunks]
    by_cases h0 : c.length = 0
    · rw [dif_pos h0]
    · rw [dif_neg h0]
      have hle : c.length ≤ m + 1 := by omega
      rw [if_pos hle]
      rw [ih (m + 1 - min (m + 1) c.length) (by omega)
        (by simp only [chunksLen]; omega)]

theorem readLoopChunks_length :
    ∀ (n : Nat) (chunks : List (List Nat)) (bs : List Nat)
      (rem : List (List Nat)),
      readLoopChunks n chunks = .ok (bs, rem) → bs.length = n := by
  intro n
  induction n using Nat.strong_induction_on with
  | _ n ih =>
    match n with
    | 0 =>
      intro chunks bs rem h
      rw [readLoopChunks] at h
      cases h
      rfl
    | m + 1 =>
      intro chunks bs rem h
      match chunks with
      | [] => rw [readLoopChunks] at h; cases h
      | c :: rest =>
        rw [readLoopChunks] at h
        by_cases h0 : c.length = 0
        · rw [dif_pos h0] at h; cases h
        · rw [dif_neg h0] at h
          cases hrec : readLoopChunks (m + 1 - min (m + 1) c.length)
              (if c.length ≤ m + 1 then rest else c.drop (m + 1) :: rest) with
          | error e => rw [hrec] at h; cases h
          | ok p =>
            obtain ⟨bs', rem'⟩ := p
            rw [hrec] at h
            cases h
            have hlen' := ih (m + 1 - min (m + 1) c.length) (by omega)
              _ _ _ hrec
            simp only [List.length_append, List.length_take, hlen']
            omega

theorem readLoopChunks_single_ok (n : Nat) (src : List Nat)
    (h : n ≤ src.length) :
    ∃ rem, readLoopChunks n [src] = .ok (src.take n, rem) ∧
      rem.flatten = src.drop n := by
  match n with
  | 0 => exact ⟨[src], by rw [readLoopChunks]; simp, by simp⟩
  | m + 1 =>
    rw [readLoopChunks]
    rw [dif_neg (by omega)]
    have hmin : min (m + 1) src.length = m + 1 := by omega
    rw [hmin]
    by_cases hle : src.length ≤ m + 1
    · rw [if_pos hle]
      simp only [Nat.sub_self]
      rw [readLoopChunks]
      refine ⟨[], by simp, ?_⟩
      simp only [List.flatten_nil]
      rw [eq_comm, List.drop_eq_nil_iff]
      omega
    · rw [if_neg hle]
      simp only [Nat.sub_self]
      rw [readLoopChunks]
      exact ⟨[src.drop (m + 1)], by simp, by simp⟩

theorem readLoopChunks_single_err (n : Nat) (src : List Nat)
    (h : src.length < n) :
    readLoopChunks n [src] = .error .incompleteNbtValue :=
  readLoopChunks_short [src] n (by omega) (by simp [chunksLen]; omega)

theorem readLoopChunks_whole (c : List Nat) (chunks : List (List Nat))
    (n : Nat) (h : c.length = n) (hn : 0 < n) :
    readLoopChunks n (c :: chunks) = .ok (c, chunks) := by
  obtain ⟨m, rfl⟩ : ∃ m, n = m + 1 := ⟨n - 1, by omega⟩
  rw [readLoopChunks]
  rw [dif_neg (by omega)]
  rw [if_pos (by omega)]
  have hmin : min (m + 1) c.length = m + 1 := by omega
  rw [hmin, Nat.sub_self]
  rw [readLoopChunks]
  simp [List.take_of_length_le (le_of_eq h)]

theorem leVal_pair (b0 b1 : Nat) : leVal [b0, b1] = b0 + 256 * b1 := by
  simp [leVal]

/-- C1: for every scalar value of each of the six kinds (i8, i16, i32, i64,
f32, f64 — the floats carried as their IEEE-754 bit patterns, so NaN
payloads and signed zero are preserved), reading back what was written
reproduces the value exactly, leaving any trailing bytes untouched. -/
theorem scalar_roundtrip :
    (∀ (v : Int) (t : List Nat), -(2 ^ 7 : Int) ≤ v → v < 2 ^ 7 →
      read_bare_byte (write_bare_byte v ++ t) = .ok (v, t)) ∧
    (∀ (v : Int) (t : List Nat), -(2 ^ 15 : Int) ≤ v → v < 2 ^ 15 →
      read_bare_short (write_bare_short v ++ t) = .ok (v, t)) ∧
    (∀ (v : Int) (t : List Nat), -(2 ^ 31 : Int) ≤ v → v < 2 ^ 31 →
      read_bare_int (write_bare_int v ++ t) = .ok (v, t)) ∧
    (∀ (v : Int) (t : List Nat), -(2 ^ 63 : Int) ≤ v → v < 2 ^ 63 →
      read_bare_long (write_bare_long v ++ t) = .ok (v, t)) ∧
    (∀ (bits : Nat) (t : List Nat), bits < 2 ^ 32 →
      read_bare_float (write_bare_float bits ++ t) = .ok (bits, t)) ∧
    (∀ (bits : Nat) (t : List Nat), bits < 2 ^ 64 →
      read_bare_double (write_bare_double bits ++ t) = .ok (bits, t)) :=
  ⟨read_write_byte, read_write_short, read_write_int, read_write_long,
   read_write_float, read_write_double⟩

/-- Witness for C1 at concrete inputs: `-5 : i8`, `-300 : i16`,
`-100000 : i32`, `-5000000000 : i64`, a NaN bit pattern with a nonzero
payload for f32 and the negative-zero bit pattern for f64. -/
theorem scalar_roundtrip_witness :
    read_bare_byte (write_bare_byte (-5) ++ []) = .ok (-5, []) ∧
    read_bare_short (write_bare_short (-300) ++ []) = .ok (-300, []) ∧
    read_bare_int (write_bare_int (-100000) ++ []) = .ok (-100000, []) ∧
    read_bare_long (write_bare_long (-5000000000) ++ []) =
      .ok (-5000000000, []) ∧
    read_bare_float (write_bare_float 0x7FC00001 ++ []) =
      .ok (0x7FC00001, []) ∧
    read_bare_double (write_bare_double 0x8000000000000000 ++ []) =
      .ok (0x8000000000000000, []) :=
  ⟨scalar_roundtrip.1 (-5) [] (by norm_num) (by norm_num),
   scalar_roundtrip.2.1 (-300) [] (by norm_num) (by norm_num),
   scalar_roundtrip.2.2.1 (-100000) [] (by norm_num) (by norm_num),
   scalar_roundtrip.2.2.2.1 (-5000000000) [] (by norm_num) (by norm_num),
   scalar_roundtrip.2.2.2.2.1 0x7FC00001 [] (by norm_num),
   scalar_roundtrip.2.2.2.2.2 0x8000000000000000 [] (by norm_num)⟩

/-- C2: for every string whose UTF-8 encoding is at most 65535 bytes
(including the empty string), reading back what `write_bare_string` wrote
reproduces the string exactly. -/
theorem string_roundtrip :
    ∀ s : List Nat, validUtf8 s = true → s.length ≤ 65535 →
      read_bare_string (write_bare_string s) = .ok (s, []) := by
  intro s hv hl
  have h := read_write_string s [] hv hl
  rwa [List.append_nil] at h

/-- Witness for C2 at the two-byte string "hi" (and, as a by-product of the
hypotheses, at a concrete valid-UTF-8 check). -/
theorem string_roundtrip_witness :
    validUtf8 [104, 105] = true ∧ ([104, 105] : List Nat).length ≤ 65535 ∧
    read_bare_string (write_bare_string [104, 105]) = .ok ([104, 105], []) :=
  ⟨by decide, by decide, string_roundtrip [104, 105] (by decide) (by decide)⟩

/-- C3: for every array of each element kind (i8, i32, i64) whose length is
at most `2^31 - 1` (including the empty array), reading back what the array
writer wrote reproduces the array exactly, element for element in order. -/
theorem array_roundtrip :
    (∀ a : List Int, a.length ≤ 2 ^ 31 - 1 →
      (∀ v ∈ a, -(2 ^ 7 : Int) ≤ v ∧ v < 2 ^ 7) →
      read_bare_byte_array (write_bare_byte_array a) = .ok (a, [])) ∧
    (∀ a : List Int, a.length ≤ 2 ^ 31 - 1 →
      (∀ v ∈ a, -(2 ^ 31 : Int) ≤ v ∧ v < 2 ^ 31) →
      read_bare_int_array (write_bare_int_array a) = .ok (a, [])) ∧
    (∀ a : List Int, a.length ≤ 2 ^ 31 - 1 →
      (∀ v ∈ a, -(2 ^ 63 : Int) ≤ v ∧ v < 2 ^ 63) →
      read_bare_long_array (write_bare_long_array a) = .ok (a, [])) := by
  refine ⟨fun a hl he => ?_, fun a hl he => ?_, fun a hl he => ?_⟩
  · have h := read_write_byte_array a [] (by omega) he
    rwa [List.append_nil] at h
  · have h := read_write_int_array a [] (by omega) he
    rwa [List.append_nil] at h
  · have h := read_write_long_array a [] (by omega) he
    rwa [List.append_nil] at h

/-- Witness for C3 at concrete arrays of each element kind, including
negative elements and values outside the smaller kinds' ranges. -/
theorem array_roundtrip_witness :
    read_bare_byte_array (write_bare_byte_array [1, -1]) = .ok ([1, -1], []) ∧
    read_bare_int_array (write_bare_int_array [70000, -70000]) =
      .ok ([70000, -70000], []) ∧
    read_bare_long_array (write_bare_long_array [5000000000, -1]) =
      .ok ([5000000000, -1], []) :=
  ⟨array_roundtrip.1 [1, -1] (by norm_num) (by norm_num),
   array_roundtrip.2.1 [70000, -70000] (by norm_num) (by norm_num),
   array_roundtrip.2.2 [5000000000, -1] (by norm_num) (by norm_num)⟩

/-- C4: the wire layout is little-endian and bit-exact: `write_bare_int(-1)`
emits `FF FF FF FF`; `write_bare_string("AB")` emits `02 00 41 42`;
`write_bare_byte_array([1, -1])` emits `02 00 00 00 01 FF`; tag byte `0x03`
followed by `write_bare_string("x")` emits `03 01 00 78`. -/
theorem concrete_wire_bytes :
    write_bare_int (-1) = [0xFF, 0xFF, 0xFF, 0xFF] ∧
    write_bare_string [0x41, 0x42] = [0x02, 0x00, 0x41, 0x42] ∧
    write_bare_byte_array [1, -1] = [0x02, 0x00, 0x00, 0x00, 0x01, 0xFF] ∧
    (0x03 :: write_bare_string [0x78]) = [0x03, 0x01, 0x00, 0x78] := by
  refine ⟨by decide, by decide, by decide, by decide⟩

/-- C5: reading a header from a source whose next byte is `0x00` (in
particular one produced by `close_nbt`) yields `(0, "")` and consumes
exactly that one byte; for every tag `t ≠ 0` and name `n` of UTF-8 length
at most 65535, writing the tag byte then `write_bare_string n` and reading
a header yields exactly `(t, n)`. -/
theorem header_roundtrip :
    (∀ rest : List Nat,
      emit_next_header (close_nbt ++ rest) = .ok ((0, []), rest)) ∧
    (∀ (t : Nat) (n rest : List Nat), t < 256 → t ≠ 0 →
      validUtf8 n = true → n.length ≤ 65535 →
      emit_next_header (t :: (write_bare_string n ++ rest)) =
        .ok ((t, n), rest)) := by
  constructor
  · intro rest
    unfold emit_next_header close_nbt
    simp only [readExact_append 1 [0x00] rest rfl]
    simp [leVal]
  · intro t n rest _ht hnz hv hl
    unfold emit_next_header
    rw [show (t :: (write_bare_string n ++ rest)) =
      [t] ++ (write_bare_string n ++ rest) from rfl]
    simp only [readExact_append 1 [t] _ rfl]
    rw [if_neg (by simp [leVal]; omega)]
    rw [read_write_string n rest hv hl]
    simp [leVal]

/-- Witness for C5: the terminator alone reads back as `(0, "")`, and tag
`0x03` with name "x" reads back as `(3, "x")`. -/
theorem header_roundtrip_witness :
    emit_next_header (close_nbt ++ []) = .ok ((0, []), []) ∧
    emit_next_header (0x03 :: (write_bare_string [0x78] ++ [])) =
      .ok ((0x03, [0x78]), []) :=
  ⟨header_roundtrip.1 [],
   header_roundtrip.2 0x03 [0x78] [] (by decide) (by decide) (by decide)
     (by decide)⟩

/-- C6: over a chunk-delivering source, a declared nonzero string length
whose payload bytes run out (a read attempt returning zero bytes) makes
`read_bare_string` fail with exactly the `IncompleteNbtValue` condition
(never a generic I/O error); the accumulation loop retries short reads, so
any successful loop returns exactly the requested number of bytes — never a
silently shortened string; and a payload split across several short reads
is reassembled in full. -/
theorem string_truncation_incomplete :
    (∀ (n : Nat) (chunks : List (List Nat)), 0 < n → n ≤ 65535 →
      chunksLen chunks < n →
      read_bare_string_chunks (leBytes 2 n :: chunks) =
        .error .incompleteNbtValue) ∧
    (∀ (n : Nat) (chunks : List (List Nat)) (bs : List Nat)
      (rem : List (List Nat)),
      readLoopChunks n chunks = .ok (bs, rem) → bs.length = n) ∧
    read_bare_string_chunks [[2, 0], [104], [105]] = .ok ([104, 105], []) := by
  refine ⟨?_, readLoopChunks_length, ?_⟩
  · intro n chunks hn hle hshort
    unfold read_bare_string_chunks
    simp only [readLoopChunks_whole (leBytes 2 n) chunks 2
      (leBytes_length 2 n) (by norm_num)]
    rw [leVal_leBytes 2 n (by norm_num; omega)]
    rw [if_neg (by omega)]
    rw [readLoopChunks_short chunks n hn hshort]
  · have h : validUtf8 [104, 105] = true := by decide
    simp [read_bare_string_chunks, readLoopChunks, leVal, h]

/-- Witness for C6: a source declaring length 5 but holding only two
payload bytes fails with the incomplete-value condition, and the loop's
successful result on a two-chunk source has exactly the declared length. -/
theorem string_truncation_incomplete_witness :
    read_bare_string_chunks (leBytes 2 5 :: [[1], [2]]) =
      .error .incompleteNbtValue ∧
    ([104, 105] : List Nat).length = 2 :=
  ⟨string_truncation_incomplete.1 5 [[1], [2]] (by decide) (by decide)
    (by decide),
   string_truncation_incomplete.2.1 2 [[104], [105]] [104, 105] []
    (by rw [readLoopChunks]; norm_num; rw [readLoopChunks]; norm_num;
        rw [readLoopChunks])⟩

/-- C7: a declared nonzero length followed by that many payload bytes that
are not valid UTF-8 makes `read_bare_string` fail with the text-decoding
error condition, which preserves the offending bytes; no partially decoded
string is returned. -/
theorem string_invalid_utf8_error :
    ∀ (p rest : List Nat), 0 < p.length → p.length ≤ 65535 →
      validUtf8 p = false →
      read_bare_string (leBytes 2 p.length ++ (p ++ rest)) =
        .error (.invalidUtf8 p) := by
  intro p rest hpos hle hinv
  unfold read_bare_string
  simp only [readExact_append 2 _ _ (leBytes_length 2 _)]
  rw [leVal_leBytes 2 _ (by norm_num; omega)]
  rw [if_neg (by omega)]
  rw [readExact_append _ _ _ rfl]
  simp [hinv]

/-- Witness for C7: the lone byte `0xFF` is not valid UTF-8; reading a
string declared as one byte long with that payload fails with the
decoding-error condition carrying `[0xFF]`. -/
theorem string_invalid_utf8_error_witness :
    validUtf8 [0xFF] = false ∧
    read_bare_string [1, 0, 0xFF] = .error (.invalidUtf8 [0xFF]) :=
  ⟨by decide, string_invalid_utf8_error [0xFF] [] (by decide) (by decide)
    (by decide)⟩

/-- C8 counterexample: the claim says a negative element count is not used
to size an allocation, but the readers compute `read_i32()? as usize` and
pass it straight to `Vec::with_capacity`: on the four bytes `FF FF FF FF`
the count reads back as `-1` and the requested capacity is `2^64 - 1`. -/
theorem array_alloc_guard_counterexample :
    read_bare_int [0xFF, 0xFF, 0xFF, 0xFF] = .ok (-1, []) ∧
    arrayAllocRequest [0xFF, 0xFF, 0xFF, 0xFF] = .ok 18446744073709551615 :=
  ⟨rfl, rfl⟩

/-- C8 amended: the array readers do NOT guard the length field — every
negative count `c` is reinterpreted (`as usize`) as `c + 2^64` and that
value, always exceeding `2^63`, is the capacity requested from
`Vec::with_capacity`. -/
theorem array_alloc_request_unguarded :
    ∀ (c : Int) (rest : List Nat), -(2 ^ 31 : Int) ≤ c → c < 0 →
      arrayAllocRequest (write_bare_int c ++ rest) =
        .ok ((c + 2 ^ 64).toNat) ∧
      2 ^ 63 < (c + 2 ^ 64).toNat := by
  intro c rest h1 h2
  constructor
  · unfold arrayAllocRequest
    simp only [read_write_int c rest h1 (by omega)]
    rw [usizeOfI32_neg c (by omega) h2]
  · omega

/-- Witness for C8's amended statement at count `-1`. -/
theorem array_alloc_request_unguarded_witness :
    arrayAllocRequest (write_bare_int (-1) ++ []) =
      .ok (((-1 : Int) + 2 ^ 64).toNat) ∧
    2 ^ 63 < ((-1 : Int) + 2 ^ 64).toNat :=
  array_alloc_request_unguarded (-1) [] (by norm_num) (by norm_num)

/-- C9: each of the six scalar readers fails with the end-of-data
(incomplete value) condition whenever the source holds fewer bytes than the
kind's fixed width (1, 2, 4 or 8); no value is ever decoded from fewer
bytes. -/
theorem scalar_read_eof :
    (∀ src : List Nat, src.length < 1 →
      read_bare_byte src = .error .incompleteNbtValue) ∧
    (∀ src : List Nat, src.length < 2 →
      read_bare_short src = .error .incompleteNbtValue) ∧
    (∀ src : List Nat, src.length < 4 →
      read_bare_int src = .error .incompleteNbtValue) ∧
    (∀ src : List Nat, src.length < 8 →
      read_bare_long src = .error .incompleteNbtValue) ∧
    (∀ src : List Nat, src.length < 4 →
      read_bare_float src = .error .incompleteNbtValue) ∧
    (∀ src : List Nat, src.length < 8 →
      read_bare_double src = .error .incompleteNbtValue) := by
  refine ⟨fun src h => ?_, fun src h => ?_, fun src h => ?_,
    fun src h => ?_, fun src h => ?_, fun src h => ?_⟩
  · unfold read_bare_byte
    rw [readExact_short _ _ h]
  · unfold read_bare_short
    rw [readExact_short _ _ h]
  · unfold read_bare_int
    rw [readExact_short _ _ h]
  · unfold read_bare_long
    rw [readExact_short _ _ h]
  · unfold read_bare_float
    rw [readExact_short _ _ h]
  · unfold read_bare_double
    rw [readExact_short _ _ h]

/-- Witness for C9: every scalar reader fails on the three-byte source
`[1, 2, 3]` when it needs more than three bytes, and on the empty source
otherwise. -/
theorem scalar_read_eof_witness :
    read_bare_byte [] = .error .incompleteNbtValue ∧
    read_bare_short [] = .error .incompleteNbtValue ∧
    read_bare_int [1, 2, 3] = .error .incompleteNbtValue ∧
    read_bare_long [1, 2, 3] = .error .incompleteNbtValue ∧
    read_bare_float [1, 2, 3] = .error .incompleteNbtValue ∧
    read_bare_double [1, 2, 3] = .error .incompleteNbtValue :=
  ⟨scalar_read_eof.1 [] (by decide),
   scalar_read_eof.2.1 [] (by decide),
   scalar_read_eof.2.2.1 [1, 2, 3] (by decide),
   scalar_read_eof.2.2.2.1 [1, 2, 3] (by decide),
   scalar_read_eof.2.2.2.2.1 [1, 2, 3] (by decide),
   scalar_read_eof.2.2.2.2.2 [1, 2, 3] (by decide)⟩

/-- C10: wire-side inverse round-trip for strings — whenever
`read_bare_string` succeeds on a byte sequence `b` consuming all of it,
re-encoding the returned string with `write_bare_string` reproduces `b`
byte for byte. -/
theorem string_wire_inverse :
    ∀ (b s : List Nat), (∀ x ∈ b, x < 256) →
      read_bare_string b = .ok (s, []) → write_bare_string s = b := by
  intro b s hb hread
  unfold read_bare_string at hread
  by_cases hlen : b.length < 2
  · simp only [readExact_short 2 b hlen] at hread
    exact Except.noConfusion hread
  · obtain ⟨b0, b1, t, rfl⟩ : ∃ b0 b1 t, b = b0 :: b1 :: t := by
      match b, hlen with
      | b0 :: b1 :: t, _ => exact ⟨b0, b1, t, rfl⟩
    have hb0 : b0 < 256 := hb b0 (by simp)
    have hb1 : b1 < 256 := hb b1 (by simp)
    rw [show (b0 :: b1 :: t) = [b0, b1] ++ t from rfl] at hread
    simp only [readExact_append 2 [b0, b1] t rfl] at hread
    by_cases h0 : leVal [b0, b1] = 0
    · rw [if_pos h0] at hread
      simp only [Except.ok.injEq, Prod.mk.injEq] at hread
      obtain ⟨hs, ht⟩ := hread
      subst hs
      subst ht
      obtain ⟨rfl, rfl⟩ : b0 = 0 ∧ b1 = 0 := by
        rw [leVal_pair] at h0; omega
      decide
    · rw [if_neg h0] at hread
      by_cases hsh : t.length < leVal [b0, b1]
      · simp only [readExact_short _ t hsh] at hread
        exact Except.noConfusion hread
      · simp only [readExact_enough (leVal [b0, b1]) t (by omega)] at hread
        by_cases hutf : validUtf8 (t.take (leVal [b0, b1])) = true
        · rw [if_pos hutf] at hread
          simp only [Except.ok.injEq, Prod.mk.injEq] at hread
          obtain ⟨hs, ht⟩ := hread
          have htlen : t.length = leVal [b0, b1] := by
            have := List.drop_eq_nil_iff.mp ht
            omega
          have hst : s = t := by
            rw [← hs, List.take_of_length_le (le_of_eq htlen)]
          subst hst
          unfold write_bare_string
          rw [htlen]
          have hpref : leBytes 2 (leVal [b0, b1] % 2 ^ 16) = [b0, b1] := by
            rw [leVal_pair]
            show (b0 + 256 * b1) % 2 ^ 16 % 256 ::
              (b0 + 256 * b1) % 2 ^ 16 / 256 % 256 :: [] = [b0, b1]
            have e1 : (b0 + 256 * b1) % 2 ^ 16 % 256 = b0 := by omega
            have e2 : (b0 + 256 * b1) % 2 ^ 16 / 256 % 256 = b1 := by omega
            rw [e1, e2]
          rw [hpref]
          rfl
        · rw [if_neg hutf] at hread
          simp at hread

/-- Witness for C10: the wire bytes `01 00 41` read back as the one-byte
string "A", and re-encoding that string reproduces the same three bytes. -/
theorem string_wire_inverse_witness :
    read_bare_string [1, 0, 65] = .ok ([65], []) ∧
    write_bare_string [65] = [1, 0, 65] :=
  ⟨rfl, string_wire_inverse [1, 0, 65] [65] (by decide) rfl⟩

end Nbt
